import Mathlib

/-!
Shallow embedding of the mini-mobx reactive dependency-tracking engine
(src/index.js, with src/unnamed/part_000 a near-duplicate minimal variant).

The engine keeps three globals (src/index.js lines 16-18): the set
`reads` of identifiers read by the reaction currently running, the Map
`subscriptions` from a reaction function to its record of reads, and the
set `observables` of minted identifiers.  `observable(target, key)`
replaces a field by an instrumented accessor whose getter records a read
and whose setter stores the value and re-runs every subscribed reaction
whose recorded read set holds the identifier of the slot.

Section one models the scheduler and notifier: identifiers are natural
numbers standing for the unique per-call symbols, reaction functions are
named by their identity key (a JS Map keys subscriptions by the function
object itself), and a reaction body is a small syntax of reads, untracked
reads and exceptions, interpreted against the store of observed slots.

Section two models the recursive observation walk over the object heap
performed by `observable` and re-applied after intercepted container
mutations, with an explicit recursion budget so that the unbounded
recursion of the source on cyclic graphs is visible as exhaustion of
every finite budget.
-/

namespace MiniMobx

/-- Identifier of an observed slot: models the unique
symbol minted per `observable` call (src/index.js line 40). -/
abbrev SymId := Nat

/-- Identity of a reaction function: the subscriptions Map keys entries
by the function object itself, so a natural number names each distinct
reaction function. -/
abbrev RKey := Nat

/-- Value held in an observed slot.  The engine hands values back to
reactions without inspecting them, so an opaque numeric payload
suffices. -/
abbrev Val := Nat

/-- The observed slots: identifier to current value.  Each slot keeps
its value in the `internalState` closure variable of its `observable`
call (src/index.js line 38). -/
abbrev Store := SymId → Val

/-- Syntax of a reaction body, the behavior of a reaction function when
invoked.  `read i k` models evaluating an instrumented field through its
getter, which adds the identifier of the slot to the global read set and
yields the current value (src/index.js lines 87-90).  `peek i k` models
reading mutable program state that is not instrumented (a plain field or
a closure variable), which does not touch the read set.  `fail` models
the body raising an exception, `done` a normal return. -/
inductive RBody where
  | done : RBody
  | fail : RBody
  | read (i : SymId) (k : Val → RBody) : RBody
  | peek (i : SymId) (k : Val → RBody) : RBody

/-- JS `Set.prototype.add` on the global read set: append the identifier
unless already present, preserving insertion order. -/
def addRead (l : List SymId) (i : SymId) : List SymId :=
  if i ∈ l then l else l ++ [i]

/-- Interpret a reaction body against the store, threading the global
read set (`acc` plays the global `reads`, cleared by `autorun` before the
body runs).  Returns the final read set and whether the body raised. -/
def runBody : RBody → Store → List SymId → List SymId × Bool
  | .done, _, acc => (acc, false)
  | .fail, _, acc => (acc, true)
  | .read i k, st, acc => runBody (k (st i)) st (addRead acc i)
  | .peek i k, st, acc => runBody (k (st i)) st acc

/-- A subscription entry: src/index.js lines 29-32 store a record with
the snapshot of reads and the reaction function itself. -/
structure Sub where
  reads : List SymId
  function : RKey
deriving DecidableEq

/-- The two mutable globals the scheduler and the notifier use: the
current read set and the subscriptions Map, the latter modelled as an
insertion-ordered association list with the unique-key discipline of a
JS Map. -/
structure EngineState where
  reads : List SymId
  subs : List (RKey × Sub)
deriving DecidableEq

/-- `Map.set`: replace the value in place when the key is present (a JS
Map keeps the original insertion position), append otherwise. -/
def setSub : List (RKey × Sub) → RKey → Sub → List (RKey × Sub)
  | [], fn, v => [(fn, v)]
  | (k, w) :: rest, fn, v =>
    if k = fn then (fn, v) :: rest else (k, w) :: setSub rest fn v

/-- `Map.get`: first entry with the given key. -/
def lookupSub : List (RKey × Sub) → RKey → Option Sub
  | [], _ => none
  | (k, w) :: rest, fn => if k = fn then some w else lookupSub rest fn

/-- The keys currently present in the subscriptions Map. -/
def subKeys (l : List (RKey × Sub)) : List RKey := l.map Prod.fst

/-- What a disposer returned by `autorun` does when invoked: nothing
(src/index.js line 25 returns an empty arrow function when the read
snapshot is empty) or `subscriptions.delete(fn)` (line 34). -/
inductive Disposer where
  | noop : Disposer
  | del (fn : RKey) : Disposer
deriving DecidableEq

/-- Invoke a disposer on the engine state.  `Map.delete` removes the
entry with the given key when present and does nothing otherwise; since
keys are unique in a Map, filtering all matching entries is that same
operation. -/
def applyDisposer : Disposer → EngineState → EngineState
  | .noop, s => s
  | .del fn, s => { s with subs := s.subs.filter (fun e => e.1 != fn) }

/-- The behavior of each reaction function, resolved from its identity
key. -/
abbrev Env := RKey → RBody

/-- `autorun` (src/index.js lines 20-35): clear the global read set, run
the body, snapshot the reads.  An empty snapshot returns the no-op
disposer without registering.  Otherwise the entry for the function is
overwritten with exactly the new snapshot -- the source builds
`new Set(currentReads, previousReads)` but the Set constructor takes a
single iterable, so the second argument is ignored and `previousReads`
is the empty set anyway -- and the deleting disposer is returned.  When
the body raises, the exception propagates before the snapshot is taken:
no disposer is produced and the subscriptions are untouched (the global
read set is left holding whatever was read before the raise). -/
def autorun (env : Env) (st : Store) (fn : RKey) (s : EngineState) :
    EngineState × Option Disposer :=
  let r := runBody (env fn) st []
  if r.2 then ({ s with reads := r.1 }, none)
  else if r.1 = [] then ({ s with reads := r.1 }, some .noop)
  else ({ reads := r.1, subs := setSub s.subs fn ⟨r.1, fn⟩ }, some (.del fn))

/-- One pass of `runSubscriptions` (src/index.js lines 50-55): iterate
the subscription entries in insertion order and re-run through `autorun`
every entry whose recorded read set holds the written identifier.
Returns the state, the keys of the reactions invoked, and whether one of
them raised, which aborts the iteration and propagates.  The entry list
is the Map content at iteration start; during the pass `autorun` only
rewrites the entry of the reaction currently being re-run, so checking
the snapshotted entry matches the live `forEach` of the source. -/
def runSubsGo (env : Env) (st : Store) (sym : SymId) :
    List (RKey × Sub) → EngineState → EngineState × List RKey × Bool
  | [], s => (s, [], false)
  | (k, sub) :: rest, s =>
    if sym ∈ sub.reads then
      let a := autorun env st k s
      match a.2 with
      | none => (a.1, [k], true)
      | some _ =>
        let r := runSubsGo env st sym rest a.1
        (r.1, k :: r.2.1, r.2.2)
    else runSubsGo env st sym rest s

/-- The result of a direct assignment through the instrumented setter:
the updated store, the updated engine state, the reactions that were
invoked (in order, with multiplicity), and whether one of them raised. -/
structure WriteResult where
  store : Store
  state : EngineState
  ran : List RKey
  threw : Bool

/-- Replace the value of one slot. -/
def updStore (st : Store) (i : SymId) (v : Val) : Store :=
  fun j => if j = i then v else st j

/-- The instrumented setter (src/index.js lines 91-94): store the new
value, then run the affected subscriptions. -/
def setField (env : Env) (st : Store) (sym : SymId) (v : Val)
    (s : EngineState) : WriteResult :=
  let st1 := updStore st sym v
  let r := runSubsGo env st1 sym s.subs s
  ⟨st1, r.1, r.2.1, r.2.2⟩

/-- A sequence of direct assignments, collecting every reaction
invocation along the way. -/
def writeSeq (env : Env) : List (SymId × Val) → Store → EngineState →
    Store × EngineState × List RKey
  | [], st, s => (st, s, [])
  | (sym, v) :: ws, st, s =>
    let r := setField env st sym v s
    let rest := writeSeq env ws r.store r.state
    (rest.1, rest.2.1, r.ran ++ rest.2.2)

/-! Heap model of the recursive observation walk.

`observable(target, key)` (src/index.js lines 37-98) reads the current
value, mints a fresh symbol, wraps the built-in methods when the value
is a Set, Map or Array, installs the accessor, and finally calls
`recursivelyWrapInObservable` (lines 57-64): when `typeof internalState`
is the string "object" it enumerates `Object.keys(internalState)`,
drops the keys named like a wrapped built-in method of the container
kind, and calls `observable` on each remaining key.  Facts of the
JavaScript object model that fix the embedding:

- `typeof null` is "object", so a null value reaches `Object.keys`,
  which throws a TypeError on null.
- `Object.keys` of a Set or Map does not enumerate the elements, which
  live in internal slots; after wrapping it returns exactly the wrapped
  method names, and those are removed by the two filters.  So the walk
  never descends into Set or Map contents.  For an Array it returns the
  element indices as strings, followed by the wrapped method names,
  again removed by the filters.
- The filter lists are those of the container kind of the value itself;
  for a plain record both lists are empty and every key is walked.

The heap maps a pointer to an object holding its own enumerable data
properties (for an Array these are the element indices; wrapped method
names are never stored, matching the filters) and, for a Set or a Map,
the internal element slots that `Object.keys` cannot see.  The recursive
walk is written as a worklist interpreter stepping one field task at a
time, with a fuel budget bounding the number of `observable` calls: the
unbounded recursion of the source appears as exhaustion of every finite
budget.  The tasks prepended for the children of an object come before
the pending continuation, so the traversal order is exactly the
depth-first order of the recursive source. -/

/-- Object identity in the heap. -/
abbrev Ptr := Nat

/-- A JavaScript value as far as the walk can distinguish values:
`undefined` (also the result of reading an absent field), `null`, an
opaque primitive (number, string, boolean: `typeof` is not "object"),
or a pointer to a heap object. -/
inductive JsVal where
  | undefined : JsVal
  | null : JsVal
  | prim (n : Nat) : JsVal
  | obj (p : Ptr) : JsVal
deriving DecidableEq

/-- Container kind of a heap object, deciding which built-in method
table applies (src/index.js lines 1-13 and 44-48). -/
inductive JsKind where
  | plain : JsKind
  | set : JsKind
  | map : JsKind
  | array : JsKind
deriving DecidableEq

/-- A heap object: its kind, its own enumerable data properties in
insertion order (for an Array the element indices as decimal strings),
and, for a Set or Map, the contents held in internal slots, invisible
to `Object.keys`.  Map entries would carry keys as well; the claims
only need the Set case, so one value list serves both. -/
structure JsObj where
  kind : JsKind
  fields : List (String × JsVal)
  elems : List JsVal
deriving DecidableEq

/-- The heap.  Total as a function; pointers never handed out map to an
empty plain object. -/
abbrev Heap := Ptr → JsObj

/-- Read an own property: `undefined` when absent. -/
def getField (h : Heap) (p : Ptr) (k : String) : JsVal :=
  (List.lookup k (h p).fields).getD .undefined

/-- `Object.keys` of a heap object (see the header comment: wrapped
method names are already excluded, matching the source filters). -/
def keysOf (h : Heap) (p : Ptr) : List String :=
  (h p).fields.map Prod.fst

/-- State of the observation machinery: the counter backing fresh
symbol minting, and the association of observed slots -- one entry per
`observable` call, in call order -- to the identifier minted for it.
The source keeps the minted symbols in the `observables` set and in the
accessor closures; the slot list records the same information together
with the slot each symbol was minted for. -/
structure ObsState where
  nextId : Nat
  slots : List ((Ptr × String) × SymId)
deriving DecidableEq

/-- Mint a fresh identifier for the slot, as `Symbol(key)` does on
every single `observable(target, key)` call (src/index.js line 40). -/
def mintSlot (s : ObsState) (p : Ptr) (k : String) : ObsState :=
  ⟨s.nextId + 1, s.slots ++ [((p, k), s.nextId)]⟩

/-- Outcome of a walk under a finite budget: the budget ran out while
work remained (the recursion of the source would still be running), a
TypeError was raised (`Object.keys` on null), or the walk finished. -/
inductive ORes where
  | diverge : ORes
  | tyerr : ORes
  | ok (s : ObsState) : ORes
deriving DecidableEq

/-- The recursive observation walk as a worklist of `(object, key)`
field tasks.  Each task performs one `observable` call: read the value,
mint the identifier, and -- when `typeof` of the value is "object" --
either throw (null) or push the field tasks of the children ahead of
the pending work.  Each call costs one unit of fuel. -/
def walk (h : Heap) : Nat → List (Ptr × String) → ObsState → ORes
  | _, [], s => .ok s
  | 0, _ :: _, _ => .diverge
  | fuel + 1, (p, k) :: rest, s =>
    let s1 := mintSlot s p k
    match getField h p k with
    | .null => .tyerr
    | .obj q => walk h fuel ((keysOf h q).map (fun k2 => (q, k2)) ++ rest) s1
    | _ => walk h fuel rest s1

/-- `observable(target, key)` on the heap: one root field task. -/
def observeField (h : Heap) (fuel : Nat) (p : Ptr) (k : String)
    (s : ObsState) : ORes :=
  walk h fuel [(p, k)] s

/-- `recursivelyWrapInObservable` alone (src/index.js lines 57-64), as
re-invoked by an intercepted mutating container operation: no symbol is
minted for the container slot itself, only the children of the value
are walked. -/
def recursivelyWrap (h : Heap) (fuel : Nat) (v : JsVal) (s : ObsState) :
    ORes :=
  match v with
  | .null => .tyerr
  | .obj q => walk h fuel ((keysOf h q).map (fun k2 => (q, k2))) s
  | _ => .ok s

/-- Replace one heap object. -/
def updObj (h : Heap) (p : Ptr) (o : JsObj) : Heap :=
  fun q => if q = p then o else h q

/-- `Array.prototype.push` of one value: a dense array stores the new
element as own property at index `length`. -/
def arrayPush (h : Heap) (c : Ptr) (v : JsVal) : Heap :=
  updObj h c
    { h c with fields := (h c).fields ++ [(toString (h c).fields.length, v)] }

/-- `Set.prototype.add`: append to the internal element slots unless
already present. -/
def setAdd (h : Heap) (c : Ptr) (v : JsVal) : Heap :=
  updObj h c
    { h c with elems := if v ∈ (h c).elems then (h c).elems
                        else (h c).elems ++ [v] }

/-- The wrapper installed by `wrapWithWrite` (src/index.js lines 74-81)
around `push` on an observed array slot: perform the original
operation, then re-apply `recursivelyWrapInObservable` to the container
value.  The final `runSubscriptions()` call belongs to the notifier
modelled in section one. -/
def interceptedArrayPush (h : Heap) (fuel : Nat) (c : Ptr) (v : JsVal)
    (s : ObsState) : Heap × ORes :=
  let h2 := arrayPush h c v
  (h2, recursivelyWrap h2 fuel (.obj c) s)

/-- The same wrapper around `add` on an observed Set slot. -/
def interceptedSetAdd (h : Heap) (fuel : Nat) (c : Ptr) (v : JsVal)
    (s : ObsState) : Heap × ORes :=
  let h2 := setAdd h c v
  (h2, recursivelyWrap h2 fuel (.obj c) s)

/-- One step of containment: object `a` holds a field whose value is
object `b`.  The walk descends along exactly this relation. -/
def Edge (h : Heap) (a b : Ptr) : Prop :=
  ∃ k, getField h a k = .obj b

/-- No field in the heap holds null (so the TypeError escape of the
walk can never fire). -/
def NoNull (h : Heap) : Prop :=
  ∀ p k, getField h p k ≠ .null

/-- Identifier discipline: every minted identifier recorded so far is
below the fresh counter. -/
def WfObs (s : ObsState) : Prop :=
  ∀ e ∈ s.slots, e.2 < s.nextId

/-! Lemmas about the subscriptions Map. -/

lemma lookup_setSub_self (l : List (RKey × Sub)) (k : RKey) (v : Sub) :
    lookupSub (setSub l k v) k = some v := by
  induction l with
  | nil => simp [setSub, lookupSub]
  | cons e rest ih =>
    obtain ⟨k1, w⟩ := e
    by_cases hk : k1 = k
    · subst hk; simp [setSub, lookupSub]
    · simp [setSub, lookupSub, hk, ih]

lemma lookup_setSub_ne (l : List (RKey × Sub)) (k fn : RKey) (v : Sub)
    (hk : k ≠ fn) :
    lookupSub (setSub l k v) fn = lookupSub l fn := by
  induction l with
  | nil => simp [setSub, lookupSub, hk]
  | cons e rest ih =>
    obtain ⟨k1, w⟩ := e
    by_cases h1 : k1 = k
    · subst h1; simp [setSub, lookupSub, hk]
    · by_cases h2 : k1 = fn
      · subst h2; simp [setSub, lookupSub, h1]
      · simp [setSub, lookupSub, h1, h2, ih]

lemma subKeys_cons (e : RKey × Sub) (l : List (RKey × Sub)) :
    subKeys (e :: l) = e.1 :: subKeys l := rfl

lemma setSub_keys_not_mem (l : List (RKey × Sub)) (k fn : RKey) (v : Sub)
    (hl : fn ∉ subKeys l) (hk : fn ≠ k) :
    fn ∉ subKeys (setSub l k v) := by
  induction l with
  | nil =>
    simp only [setSub, subKeys_cons]
    intro hmem
    rcases List.mem_cons.mp hmem with h | h
    · exact hk h
    · simp [subKeys] at h
  | cons e rest ih =>
    obtain ⟨k1, w⟩ := e
    rw [subKeys_cons] at hl
    have h1 : fn ≠ k1 := fun hh => hl (by rw [hh]; exact List.mem_cons_self _ _)
    have h2 : fn ∉ subKeys rest := fun hh => hl (List.mem_cons_of_mem _ hh)
    by_cases hc : k1 = k
    · subst hc
      rw [show setSub ((k1, w) :: rest) k1 v = (k1, v) :: rest from by
        simp [setSub]]
      rw [subKeys_cons]
      intro hmem
      rcases List.mem_cons.mp hmem with h | h
      · exact h1 h
      · exact h2 h
    · rw [show setSub ((k1, w) :: rest) k v = (k1, w) :: setSub rest k v from by
        simp [setSub, hc]]
      rw [subKeys_cons]
      intro hmem
      rcases List.mem_cons.mp hmem with h | h
      · exact h1 h
      · exact ih h2 h

lemma lookup_eq_none_of_not_mem (l : List (RKey × Sub)) (fn : RKey)
    (h : fn ∉ subKeys l) : lookupSub l fn = none := by
  induction l with
  | nil => rfl
  | cons e rest ih =>
    obtain ⟨k, w⟩ := e
    rw [subKeys_cons] at h
    have h1 : k ≠ fn := fun hh => h (by rw [hh]; exact List.mem_cons_self _ _)
    have h2 : fn ∉ subKeys rest := fun hh => h (List.mem_cons_of_mem _ hh)
    simp [lookupSub, h1]
    exact ih h2

lemma lookup_of_mem_nodup (l : List (RKey × Sub)) (fn : RKey) (w : Sub)
    (hnd : (subKeys l).Nodup) (hm : (fn, w) ∈ l) :
    lookupSub l fn = some w := by
  induction l with
  | nil => simp at hm
  | cons e rest ih =>
    obtain ⟨k, v⟩ := e
    rw [subKeys_cons] at hnd
    have hnd1 := List.nodup_cons.mp hnd
    rcases List.mem_cons.mp hm with he | ht
    · injection he with e1 e2
      subst e1; subst e2
      simp [lookupSub]
    · have hk : k ≠ fn := by
        intro hh; subst hh
        exact hnd1.1 (List.mem_map.mpr ⟨(k, w), ht, rfl⟩)
      simp [lookupSub, hk]
      exact ih hnd1.2 ht

/-! Lemmas about `autorun`. -/

lemma autorun_of_fail (env : Env) (st : Store) (fn : RKey) (s : EngineState)
    (h : (runBody (env fn) st []).2 = true) :
    autorun env st fn s = ({ s with reads := (runBody (env fn) st []).1 }, none) := by
  simp [autorun, h]

lemma autorun_ne_none (env : Env) (st : Store) (fn : RKey) (s : EngineState)
    (h : (runBody (env fn) st []).2 = false) :
    (autorun env st fn s).2 ≠ none := by
  simp only [autorun, h]
  split
  · simp_all
  · split <;> simp

lemma autorun_subs_ne (env : Env) (st : Store) (k : RKey) (s : EngineState)
    (fn : RKey) (hk : k ≠ fn) :
    lookupSub (autorun env st k s).1.subs fn = lookupSub s.subs fn := by
  simp only [autorun]
  split
  · rfl
  · split
    · rfl
    · exact lookup_setSub_ne _ _ _ _ hk

lemma autorun_keys (env : Env) (st : Store) (k : RKey) (s : EngineState)
    (fn : RKey) (hs : fn ∉ subKeys s.subs) (hk : fn ≠ k) :
    fn ∉ subKeys (autorun env st k s).1.subs := by
  simp only [autorun]
  split
  · exact hs
  · split
    · exact hs
    · exact setSub_keys_not_mem _ _ _ _ hs hk

/-! Lemmas about one notification pass. -/

lemma runSubsGo_count (env : Env) (st : Store) (sym : SymId) (fn : RKey) :
    ∀ (pending : List (RKey × Sub)) (s : EngineState),
      (∀ e ∈ pending, sym ∈ e.2.reads → (runBody (env e.1) st []).2 = false) →
      (runSubsGo env st sym pending s).2.1.count fn
        = pending.countP (fun e => decide (e.1 = fn ∧ sym ∈ e.2.reads)) := by
  intro pending
  induction pending with
  | nil => intro s _; simp [runSubsGo]
  | cons e rest ih =>
    intro s hok
    obtain ⟨k, sub⟩ := e
    by_cases hs : sym ∈ sub.reads
    · have hfail : (runBody (env k) st []).2 = false :=
        hok (k, sub) (List.mem_cons_self _ _) hs
      rcases hA : (autorun env st k s).2 with _ | d
      · exact absurd hA (autorun_ne_none env st k s hfail)
      · simp only [runSubsGo, if_pos hs, hA]
        rw [List.count_cons]
        rw [ih _ (fun e he hm => hok e (List.mem_cons_of_mem _ he) hm)]
        rw [List.countP_cons]
        by_cases hk : k = fn <;> simp [hk, hs]
    · simp only [runSubsGo, if_neg hs]
      rw [ih _ (fun e he hm => hok e (List.mem_cons_of_mem _ he) hm)]
      rw [List.countP_cons]
      simp [hs]

lemma countP_matching_eq_one (l : List (RKey × Sub)) (fn : RKey) (sub : Sub)
    (sym : SymId) (hnd : (subKeys l).Nodup)
    (hl : lookupSub l fn = some sub) (hs : sym ∈ sub.reads) :
    l.countP (fun e => decide (e.1 = fn ∧ sym ∈ e.2.reads)) = 1 := by
  induction l with
  | nil => simp [lookupSub] at hl
  | cons e rest ih =>
    obtain ⟨k, w⟩ := e
    rw [subKeys_cons] at hnd
    have hnd1 := List.nodup_cons.mp hnd
    by_cases hk : k = fn
    · subst hk
      rw [show lookupSub ((k, w) :: rest) k = some w from by simp [lookupSub]] at hl
      injection hl with hw
      subst hw
      have hz : rest.countP (fun e => decide (e.1 = k ∧ sym ∈ e.2.reads)) = 0 := by
        apply List.countP_eq_zero.mpr
        rintro ⟨a, b⟩ he
        have ha : a ≠ k := by
          intro h; subst h
          exact hnd1.1 (List.mem_map.mpr ⟨(a, b), he, rfl⟩)
        simp [ha]
      rw [List.countP_cons, hz]
      simp [hs]
    · have hl2 : lookupSub rest fn = some sub := by
        simpa [lookupSub, hk] using hl
      rw [List.countP_cons, ih hnd1.2 hl2]
      simp [hk]

lemma runSubsGo_ran_mem (env : Env) (st : Store) (sym : SymId) :
    ∀ (pending : List (RKey × Sub)) (s : EngineState) (fn : RKey),
      fn ∈ (runSubsGo env st sym pending s).2.1 →
      ∃ e ∈ pending, e.1 = fn ∧ sym ∈ e.2.reads := by
  intro pending
  induction pending with
  | nil => intro s fn h; simp [runSubsGo] at h
  | cons e rest ih =>
    intro s fn h
    obtain ⟨k, sub⟩ := e
    by_cases hs : sym ∈ sub.reads
    · rcases hA : (autorun env st k s).2 with _ | d
      · simp only [runSubsGo, if_pos hs, hA] at h
        rcases List.mem_singleton.mp h with rfl
        exact ⟨(fn, sub), List.mem_cons_self _ _, rfl, hs⟩
      · simp only [runSubsGo, if_pos hs, hA] at h
        rcases List.mem_cons.mp h with rfl | ht
        · exact ⟨(fn, sub), List.mem_cons_self _ _, rfl, hs⟩
        · obtain ⟨e, he, h1, h2⟩ := ih _ fn ht
          exact ⟨e, List.mem_cons_of_mem _ he, h1, h2⟩
    · simp only [runSubsGo, if_neg hs] at h
      obtain ⟨e, he, h1, h2⟩ := ih s fn h
      exact ⟨e, List.mem_cons_of_mem _ he, h1, h2⟩

lemma runSubsGo_preserve (env : Env) (st : Store) (sym : SymId) (fn : RKey) :
    ∀ (pending : List (RKey × Sub)) (s : EngineState),
      (∀ e ∈ pending, e.1 = fn → sym ∉ e.2.reads) →
      lookupSub (runSubsGo env st sym pending s).1.subs fn
        = lookupSub s.subs fn := by
  intro pending
  induction pending with
  | nil => intro s _; simp [runSubsGo]
  | cons e rest ih =>
    intro s hno
    obtain ⟨k, sub⟩ := e
    by_cases hs : sym ∈ sub.reads
    · have hk : k ≠ fn := fun h => hno (k, sub) (List.mem_cons_self _ _) h hs
      rcases hA : (autorun env st k s).2 with _ | d
      · simp only [runSubsGo, if_pos hs, hA]
        exact autorun_subs_ne env st k s fn hk
      · simp only [runSubsGo, if_pos hs, hA]
        rw [ih _ (fun e he h2 => hno e (List.mem_cons_of_mem _ he) h2)]
        exact autorun_subs_ne env st k s fn hk
    · simp only [runSubsGo, if_neg hs]
      exact ih s (fun e he h2 => hno e (List.mem_cons_of_mem _ he) h2)

lemma mem_eq_of_lookup_nodup (l : List (RKey × Sub)) (fn : RKey) (sub : Sub)
    (hnd : (subKeys l).Nodup) (hl : lookupSub l fn = some sub) :
    ∀ e ∈ l, e.1 = fn → e.2 = sub := by
  intro e he h1
  obtain ⟨k, w⟩ := e
  simp only at h1
  subst h1
  have h2 := lookup_of_mem_nodup l k w hnd he
  rw [hl] at h2
  injection h2 with h3
  exact h3.symm

/-- C1: after a reaction is registered via `autorun` with a recorded
read set holding the identifier of an observed slot, one direct
assignment to that slot re-runs the reaction exactly once -- not zero
times and not twice -- provided every subscribed reaction invoked by
this notification pass runs without raising.  The subscription Map
keys are unique, hypothesis `hnd`. -/
theorem c1_write_single_rerun (env : Env) (st : Store) (sym : SymId)
    (v : Val) (s : EngineState) (fn : RKey) (sub : Sub)
    (hnd : (subKeys s.subs).Nodup)
    (hmem : lookupSub s.subs fn = some sub)
    (hs : sym ∈ sub.reads)
    (hok : ∀ e ∈ s.subs, sym ∈ e.2.reads →
      (runBody (env e.1) (updStore st sym v) []).2 = false) :
    ((setField env st sym v s).ran).count fn = 1 := by
  show ((runSubsGo env (updStore st sym v) sym s.subs s).2.1).count fn = 1
  rw [runSubsGo_count env _ sym fn s.subs s hok]
  exact countP_matching_eq_one s.subs fn sub sym hnd hmem hs

def env1 : Env := fun _ => .read 0 (fun _ => .done)

def st1 : Store := fun _ => 0

def s1 : EngineState := ⟨[0], [(3, ⟨[0], 3⟩)]⟩

/-- C1 witness: a concrete subscription on slot 0 is re-run exactly
once by one write to slot 0. -/
theorem c1_write_single_rerun_witness :
    ((setField env1 st1 0 5 s1).ran).count 3 = 1 :=
  c1_write_single_rerun env1 st1 0 5 s1 3 ⟨[0], 3⟩ (by decide) (by decide)
    (by decide) (by decide)

/-- C2: a write to a slot whose identifier is not in the recorded read
set of a registered reaction neither re-runs that reaction nor touches
its registry entry. -/
theorem c2_untracked_write_no_rerun (env : Env) (st : Store) (sym : SymId)
    (v : Val) (s : EngineState) (fn : RKey) (sub : Sub)
    (hnd : (subKeys s.subs).Nodup)
    (hmem : lookupSub s.subs fn = some sub)
    (hns : sym ∉ sub.reads) :
    fn ∉ (setField env st sym v s).ran ∧
      lookupSub (setField env st sym v s).state.subs fn = some sub := by
  constructor
  · intro h
    obtain ⟨e, he, h1, h2⟩ :=
      runSubsGo_ran_mem env (updStore st sym v) sym s.subs s fn h
    have := mem_eq_of_lookup_nodup s.subs fn sub hnd hmem e he h1
    exact hns (this ▸ h2)
  · show lookupSub (runSubsGo env (updStore st sym v) sym s.subs s).1.subs fn
      = some sub
    rw [runSubsGo_preserve env _ sym fn s.subs s
      (fun e he h1 h2 =>
        hns ((mem_eq_of_lookup_nodup s.subs fn sub hnd hmem e he h1) ▸ h2))]
    exact hmem

def env2 : Env := fun _ => .read 1 (fun _ => .done)

/-- C2 witness: writing slot 0 leaves a reaction tracking only slot 1
uninvoked with its entry intact. -/
theorem c2_untracked_write_no_rerun_witness :
    3 ∉ (setField env2 st1 0 5 ⟨[], [(3, ⟨[1], 3⟩)]⟩).ran ∧
      lookupSub (setField env2 st1 0 5 ⟨[], [(3, ⟨[1], 3⟩)]⟩).state.subs 3
        = some ⟨[1], 3⟩ :=
  c2_untracked_write_no_rerun env2 st1 0 5 ⟨[], [(3, ⟨[1], 3⟩)]⟩ 3 ⟨[1], 3⟩
    (by decide) (by decide) (by decide)

/-- C3 amended: when a run of the reaction reads at least one
identifier, the registry entry afterwards is exactly the snapshot of
that run -- replaced wholesale, not merged with the previous entry.
When the run reads nothing, `autorun` returns before touching the Map,
so a previously stored entry survives unreplaced (see the
counterexample). -/
theorem c3_readset_replaced_wholesale (env : Env) (st : Store) (fn : RKey)
    (s : EngineState) (rds : List SymId)
    (hrun : runBody (env fn) st [] = (rds, false)) :
    (rds ≠ [] → lookupSub (autorun env st fn s).1.subs fn = some ⟨rds, fn⟩) ∧
    (rds = [] → (autorun env st fn s).1.subs = s.subs) := by
  constructor
  · intro hne
    simp only [autorun, hrun]
    simp only [if_neg (by simp : ¬(false = true))]
    rw [if_neg hne]
    exact lookup_setSub_self s.subs fn ⟨rds, fn⟩
  · intro he
    simp [autorun, hrun, he]

/-- Reaction body of the C3 scenario: an untracked peek at slot 9 (a
plain, uninstrumented field) decides whether the instrumented slot 0 is
read at all. -/
def envc3 : Env := fun _ =>
  .peek 9 (fun g => if g = 0 then .done else .read 0 (fun _ => .done))

def stc3 : Store := fun i => if i = 9 then 1 else 5

def sc3 : EngineState := ⟨[0], [(4, ⟨[0], 4⟩)]⟩

/-- C3 counterexample: the claim says the stored readSet is replaced on
every re-run by the identifiers read during that run.  Here the first
`autorun` registers reaction 4 with readSet containing slot 0; after the
untracked slot 9 flips, the re-run triggered by writing slot 0 reads
nothing at all, yet the stored entry still carries the stale readSet of
the previous run instead of the empty snapshot of this run. -/
theorem c3_counterexample_stale_entry :
    autorun envc3 stc3 4 ⟨[], []⟩ = (sc3, some (.del 4)) ∧
    runBody (envc3 4) (updStore (updStore stc3 9 0) 0 7) [] = ([], false) ∧
    (setField envc3 (updStore stc3 9 0) 0 7 sc3).state.subs
      = [(4, ⟨[0], 4⟩)] := by
  refine ⟨by decide, by decide, by decide⟩

/-- C3 witness: the conditional reaction of the scenario in the spec.
Reading slot 0 (the flag) decides whether slot 1 is read; a re-run with
the flag off stores exactly the shrunk snapshot without slot 1, a re-run
with the flag on stores the grown snapshot with it again. -/
def envc3b : Env := fun _ =>
  .read 0 (fun a => if a = 0 then .done else .read 1 (fun _ => .done))

theorem c3_readset_replaced_wholesale_witness :
    lookupSub (autorun envc3b (fun _ => 0) 7 ⟨[], [(7, ⟨[0, 1], 7⟩)]⟩).1.subs 7
      = some ⟨[0], 7⟩ ∧
    lookupSub (autorun envc3b (fun _ => 1) 7 ⟨[], [(7, ⟨[0], 7⟩)]⟩).1.subs 7
      = some ⟨[0, 1], 7⟩ :=
  ⟨(c3_readset_replaced_wholesale envc3b (fun _ => 0) 7 ⟨[], [(7, ⟨[0, 1], 7⟩)]⟩
      [0] (by decide)).1 (by decide),
   (c3_readset_replaced_wholesale envc3b (fun _ => 1) 7 ⟨[], [(7, ⟨[0], 7⟩)]⟩
      [0, 1] (by decide)).1 (by decide)⟩

/-! Lemmas for disposal and for reactions that are absent from the
registry: a notification pass can neither invoke such a reaction nor
create an entry for it. -/

lemma runSubsGo_keys (env : Env) (st : Store) (sym : SymId) (fn : RKey) :
    ∀ (pending : List (RKey × Sub)) (s : EngineState),
      fn ∉ subKeys pending → fn ∉ subKeys s.subs →
      fn ∉ subKeys (runSubsGo env st sym pending s).1.subs ∧
        fn ∉ (runSubsGo env st sym pending s).2.1 := by
  intro pending
  induction pending with
  | nil => intro s _ hsub; exact ⟨hsub, by simp [runSubsGo]⟩
  | cons e rest ih =>
    intro s hp hsub
    obtain ⟨k, sub⟩ := e
    rw [subKeys_cons] at hp
    have hk : fn ≠ k := fun h => hp (by rw [h]; exact List.mem_cons_self _ _)
    have hp2 : fn ∉ subKeys rest := fun h => hp (List.mem_cons_of_mem _ h)
    by_cases hs : sym ∈ sub.reads
    · rcases hA : (autorun env st k s).2 with _ | d
      · simp only [runSubsGo, if_pos hs, hA]
        refine ⟨autorun_keys env st k s fn hsub hk, ?_⟩
        simp [hk]
      · simp only [runSubsGo, if_pos hs, hA]
        have hsub2 := autorun_keys env st k s fn hsub hk
        obtain ⟨ha, hb⟩ := ih _ hp2 hsub2
        refine ⟨ha, ?_⟩
        intro hmem
        rcases List.mem_cons.mp hmem with h | h
        · exact hk h
        · exact hb h
    · simp only [runSubsGo, if_neg hs]
      exact ih s hp2 hsub

lemma setField_no_touch (env : Env) (st : Store) (sym : SymId) (v : Val)
    (s : EngineState) (fn : RKey) (h : fn ∉ subKeys s.subs) :
    fn ∉ (setField env st sym v s).ran ∧
      fn ∉ subKeys (setField env st sym v s).state.subs := by
  have hh := runSubsGo_keys env (updStore st sym v) sym fn s.subs s h h
  exact ⟨hh.2, hh.1⟩

lemma writeSeq_no_run (env : Env) (fn : RKey) :
    ∀ (ws : List (SymId × Val)) (st : Store) (s : EngineState),
      fn ∉ subKeys s.subs → fn ∉ (writeSeq env ws st s).2.2 := by
  intro ws
  induction ws with
  | nil => intro st s _; simp [writeSeq]
  | cons w rest ih =>
    intro st s h
    obtain ⟨sym, v⟩ := w
    have h1 := setField_no_touch env st sym v s fn h
    simp only [writeSeq]
    intro hmem
    rcases List.mem_append.mp hmem with hm | hm
    · exact h1.1 hm
    · exact ih _ _ h1.2 hm

/-- C6: a reaction whose run registers no observable reads is not
stored (the subscriptions stay as they were), the disposer handed back
is the no-op arrow function of src/index.js line 25 that removes
nothing, and no sequence of later writes ever invokes the reaction. -/
theorem c6_empty_readset_not_registered (env : Env) (st : Store) (fn : RKey)
    (s : EngineState)
    (hrun : runBody (env fn) st [] = ([], false))
    (hout : fn ∉ subKeys s.subs) :
    autorun env st fn s = ({ s with reads := [] }, some .noop) ∧
    (∀ s2, applyDisposer .noop s2 = s2) ∧
    (∀ ws st0, fn ∉ (writeSeq env ws st0 { s with reads := [] }).2.2) := by
  refine ⟨?_, fun s2 => rfl, fun ws st0 => writeSeq_no_run env fn ws st0 _ hout⟩
  simp [autorun, hrun]

def env6 : Env := fun _ => .done

def s6 : EngineState := ⟨[], [(5, ⟨[2], 5⟩)]⟩

/-- C6 witness: a reaction reading nothing, in the presence of an
unrelated subscription, stays unregistered and is never invoked by a
later write. -/
theorem c6_empty_readset_not_registered_witness :
    autorun env6 st1 9 s6 = ({ s6 with reads := [] }, some .noop) ∧
    applyDisposer .noop s6 = s6 ∧
    9 ∉ (writeSeq env6 [(2, 7)] st1 { s6 with reads := [] }).2.2 := by
  have h := c6_empty_readset_not_registered env6 st1 9 s6 (by decide) (by decide)
  exact ⟨h.1, h.2.1 s6, h.2.2 [(2, 7)] st1⟩

lemma filter_keys_not_mem (l : List (RKey × Sub)) (fn : RKey) :
    fn ∉ subKeys (l.filter (fun e => e.1 != fn)) := by
  intro h
  obtain ⟨e, he, h1⟩ := List.mem_map.mp h
  have h2 := (List.mem_filter.mp he).2
  simp [h1] at h2

lemma filter_del_idem (l : List (RKey × Sub)) (fn : RKey) :
    (l.filter (fun e => e.1 != fn)).filter (fun e => e.1 != fn)
      = l.filter (fun e => e.1 != fn) := by
  apply List.filter_eq_self.mpr
  intro e he
  exact (List.mem_filter.mp he).2

/-- C7: a reaction registered with a nonempty snapshot receives the
deleting disposer; invoking it removes the registry entry of the
reaction, so no later write can re-run it, and invoking it a second
time leaves the registry exactly as the first invocation left it. -/
theorem c7_disposer_removes_entry (env : Env) (st : Store) (fn : RKey)
    (s : EngineState) (rds : List SymId)
    (hrun : runBody (env fn) st [] = (rds, false)) (hne : rds ≠ []) :
    autorun env st fn s
      = ({ reads := rds, subs := setSub s.subs fn ⟨rds, fn⟩ }, some (.del fn)) ∧
    (∀ s2, lookupSub (applyDisposer (.del fn) s2).subs fn = none) ∧
    (∀ s2, applyDisposer (.del fn) (applyDisposer (.del fn) s2)
      = applyDisposer (.del fn) s2) ∧
    (∀ s2 ws st0, fn ∉ (writeSeq env ws st0 (applyDisposer (.del fn) s2)).2.2) := by
  refine ⟨?_, ?_, ?_, ?_⟩
  · simp [autorun, hrun, hne]
  · intro s2
    exact lookup_eq_none_of_not_mem _ fn (filter_keys_not_mem s2.subs fn)
  · intro s2
    simp [applyDisposer, filter_del_idem]
  · intro s2 ws st0
    exact writeSeq_no_run env fn ws st0 _ (filter_keys_not_mem s2.subs fn)

def env7 : Env := fun _ => .read 1 (fun _ => .done)

def s7d : EngineState := ⟨[1], [(2, ⟨[1], 2⟩)]⟩

/-- C7 witness: disposing a concrete subscription removes it, doing so
twice changes nothing further, and a later write to its formerly
tracked slot does not invoke it. -/
theorem c7_disposer_removes_entry_witness :
    autorun env7 st1 2 ⟨[], []⟩ = (⟨[1], [(2, ⟨[1], 2⟩)]⟩, some (.del 2)) ∧
    lookupSub (applyDisposer (.del 2) s7d).subs 2 = none ∧
    applyDisposer (.del 2) (applyDisposer (.del 2) s7d)
      = applyDisposer (.del 2) s7d ∧
    2 ∉ (writeSeq env7 [(1, 9)] st1 (applyDisposer (.del 2) s7d)).2.2 := by
  have h := c7_disposer_removes_entry env7 st1 2 ⟨[], []⟩ [1] (by decide) (by decide)
  exact ⟨h.1, h.2.1 s7d, h.2.2.1 s7d, h.2.2.2 s7d [(1, 9)] st1⟩

lemma c8_go (env : Env) (st : Store) (sym : SymId) (fn : RKey) (sub : Sub)
    (hfail : (runBody (env fn) st []).2 = true) :
    ∀ (pending : List (RKey × Sub)) (s : EngineState),
      lookupSub pending fn = some sub → sym ∈ sub.reads →
      (∀ e ∈ pending, e.1 ≠ fn → sym ∈ e.2.reads →
        (runBody (env e.1) st []).2 = false) →
      (runSubsGo env st sym pending s).2.2 = true ∧
        lookupSub (runSubsGo env st sym pending s).1.subs fn
          = lookupSub s.subs fn := by
  intro pending
  induction pending with
  | nil => intro s h; simp [lookupSub] at h
  | cons e rest ih =>
    intro s hl hs hoth
    obtain ⟨k, w⟩ := e
    by_cases hk : k = fn
    · subst hk
      rw [show lookupSub ((k, w) :: rest) k = some w from by simp [lookupSub]] at hl
      injection hl with hw
      subst hw
      have hA : (autorun env st k s).2 = none := by
        rw [autorun_of_fail env st k s hfail]
      simp only [runSubsGo, if_pos hs, hA]
      refine ⟨by simp, ?_⟩
      rw [autorun_of_fail env st k s hfail]
    · have hl2 : lookupSub rest fn = some sub := by
        simpa [lookupSub, hk] using hl
      by_cases hsw : sym ∈ w.reads
      · have hokk : (runBody (env k) st []).2 = false :=
          hoth (k, w) (List.mem_cons_self _ _) hk hsw
        rcases hA : (autorun env st k s).2 with _ | d
        · exact absurd hA (autorun_ne_none env st k s hokk)
        · simp only [runSubsGo, if_pos hsw, hA]
          obtain ⟨ha, hb⟩ := ih _ hl2 hs
            (fun e he => hoth e (List.mem_cons_of_mem _ he))
          exact ⟨ha, hb.trans (autorun_subs_ne env st k s fn hk)⟩
      · simp only [runSubsGo, if_neg hsw]
        exact ih s hl2 hs (fun e he => hoth e (List.mem_cons_of_mem _ he))

/-- C8: a reaction that raises propagates the failure.  On a first run
`autorun` yields no disposer and leaves the subscriptions untouched; on
a re-run the notification pass reports the raise to the caller of the
setter, and the registry entry of the throwing reaction keeps exactly
the readSet of its last successful run.  The entries before it in the
pass are re-run normally, hypothesis `hoth`. -/
theorem c8_throwing_reaction_no_catch (env : Env) (st : Store) (sym : SymId)
    (v : Val) (s : EngineState) (fn : RKey) (sub : Sub)
    (hmem : lookupSub s.subs fn = some sub)
    (hs : sym ∈ sub.reads)
    (hfail : (runBody (env fn) (updStore st sym v) []).2 = true)
    (hoth : ∀ e ∈ s.subs, e.1 ≠ fn → sym ∈ e.2.reads →
      (runBody (env e.1) (updStore st sym v) []).2 = false) :
    (∀ (st0 : Store) (s0 : EngineState), (runBody (env fn) st0 []).2 = true →
        (autorun env st0 fn s0).2 = none ∧
          (autorun env st0 fn s0).1.subs = s0.subs) ∧
    (setField env st sym v s).threw = true ∧
    lookupSub (setField env st sym v s).state.subs fn = some sub := by
  have hgo := c8_go env (updStore st sym v) sym fn sub hfail s.subs s hmem hs hoth
  refine ⟨?_, hgo.1, hgo.2.trans hmem⟩
  intro st0 s0 h
  rw [autorun_of_fail env st0 fn s0 h]
  exact ⟨rfl, rfl⟩

def env8 : Env := fun k => if k = 2 then .read 0 (fun _ => .fail) else .done

def s8 : EngineState := ⟨[], [(2, ⟨[0], 2⟩)]⟩

/-- C8 witness: a concrete reaction that reads slot 0 and then raises:
the first-run path yields no disposer and leaves the Map alone, the
re-run path reports the raise and keeps the stale entry. -/
theorem c8_throwing_reaction_no_catch_witness :
    (autorun env8 st1 2 s8).2 = none ∧ (autorun env8 st1 2 s8).1.subs = s8.subs ∧
    (setField env8 st1 0 5 s8).threw = true ∧
    lookupSub (setField env8 st1 0 5 s8).state.subs 2 = some ⟨[0], 2⟩ := by
  have h := c8_throwing_reaction_no_catch env8 st1 0 5 s8 2 ⟨[0], 2⟩
    (by decide) (by decide) (by decide) (by decide)
  have h1 := h.1 st1 s8 (by decide)
  exact ⟨h1.1, h1.2, h.2.1, h.2.2⟩

/-! Lemmas about the observation walk. -/

lemma walk_nil (h : Heap) (fuel : Nat) (s : ObsState) :
    walk h fuel [] s = .ok s := by
  cases fuel <;> rfl

lemma walk_zero (h : Heap) (t : Ptr × String) (rest : List (Ptr × String))
    (s : ObsState) : walk h 0 (t :: rest) s = .diverge := rfl

lemma walk_succ_null (h : Heap) (fuel : Nat) (p : Ptr) (k : String)
    (rest : List (Ptr × String)) (s : ObsState)
    (hv : getField h p k = .null) :
    walk h (fuel + 1) ((p, k) :: rest) s = .tyerr := by
  simp [walk, hv]

lemma walk_succ_obj (h : Heap) (fuel : Nat) (p : Ptr) (k : String)
    (rest : List (Ptr × String)) (s : ObsState) (q : Ptr)
    (hv : getField h p k = .obj q) :
    walk h (fuel + 1) ((p, k) :: rest) s
      = walk h fuel ((keysOf h q).map (fun k2 => (q, k2)) ++ rest)
          (mintSlot s p k) := by
  simp [walk, hv]

lemma walk_succ_undefined (h : Heap) (fuel : Nat) (p : Ptr) (k : String)
    (rest : List (Ptr × String)) (s : ObsState)
    (hv : getField h p k = .undefined) :
    walk h (fuel + 1) ((p, k) :: rest) s
      = walk h fuel rest (mintSlot s p k) := by
  simp [walk, hv]

lemma walk_succ_prim (h : Heap) (fuel : Nat) (p : Ptr) (k : String)
    (rest : List (Ptr × String)) (s : ObsState) (n : Nat)
    (hv : getField h p k = .prim n) :
    walk h (fuel + 1) ((p, k) :: rest) s
      = walk h fuel rest (mintSlot s p k) := by
  simp [walk, hv]

/-- A finished walk only appends to the slot list, and every appended
identifier lies between the starting and the final counter. -/
lemma walk_mono (h : Heap) :
    ∀ (fuel : Nat) (ws : List (Ptr × String)) (s s2 : ObsState),
      walk h fuel ws s = .ok s2 →
      s.nextId ≤ s2.nextId ∧
        ∃ t, s2.slots = s.slots ++ t ∧
          ∀ e ∈ t, s.nextId ≤ e.2 ∧ e.2 < s2.nextId := by
  intro fuel
  induction fuel with
  | zero =>
    intro ws s s2 hw
    cases ws with
    | nil =>
      rw [walk_nil] at hw
      injection hw with h1; subst h1
      exact ⟨le_refl _, [], by simp, by simp⟩
    | cons t rest =>
      rw [walk_zero] at hw
      exact absurd hw (by simp)
  | succ fuel ih =>
    intro ws s s2 hw
    cases ws with
    | nil =>
      rw [walk_nil] at hw
      injection hw with h1; subst h1
      exact ⟨le_refl _, [], by simp, by simp⟩
    | cons t rest =>
      obtain ⟨p, k⟩ := t
      have hstep : ∀ ws2, walk h fuel ws2 (mintSlot s p k) = .ok s2 →
          s.nextId ≤ s2.nextId ∧ ∃ t2, s2.slots = s.slots ++ t2 ∧
            ∀ e ∈ t2, s.nextId ≤ e.2 ∧ e.2 < s2.nextId := by
        intro ws2 hw2
        obtain ⟨h1, t2, ht2, hb⟩ := ih ws2 (mintSlot s p k) s2 hw2
        refine ⟨le_trans (Nat.le_succ _) h1, ((p, k), s.nextId) :: t2, ?_, ?_⟩
        · rw [ht2]; simp [mintSlot]
        · intro e he
          rcases List.mem_cons.mp he with rfl | he2
          · exact ⟨le_refl _, lt_of_lt_of_le (Nat.lt_succ_self _) h1⟩
          · exact ⟨le_trans (Nat.le_succ _) (hb e he2).1, (hb e he2).2⟩
      cases hv : getField h p k with
      | null =>
        rw [walk_succ_null h fuel p k rest s hv] at hw
        exact absurd hw (by simp)
      | obj q =>
        rw [walk_succ_obj h fuel p k rest s q hv] at hw
        exact hstep _ hw
      | undefined =>
        rw [walk_succ_undefined h fuel p k rest s hv] at hw
        exact hstep _ hw
      | prim n =>
        rw [walk_succ_prim h fuel p k rest s n hv] at hw
        exact hstep _ hw

/-- The head task of a finished walk received exactly the next fresh
identifier of the starting state. -/
lemma walk_head_minted (h : Heap) (fuel : Nat) (p : Ptr) (k : String)
    (rest : List (Ptr × String)) (s s2 : ObsState)
    (hw : walk h fuel ((p, k) :: rest) s = .ok s2) :
    ((p, k), s.nextId) ∈ s2.slots := by
  cases fuel with
  | zero =>
    rw [walk_zero] at hw
    exact absurd hw (by simp)
  | succ fuel =>
    have hnext : ∀ ws2, walk h fuel ws2 (mintSlot s p k) = .ok s2 →
        ((p, k), s.nextId) ∈ s2.slots := by
      intro ws2 hw2
      obtain ⟨_, t2, ht2, _⟩ := walk_mono h fuel ws2 (mintSlot s p k) s2 hw2
      rw [ht2]; simp [mintSlot]
    cases hv : getField h p k with
    | null =>
      rw [walk_succ_null h fuel p k rest s hv] at hw
      exact absurd hw (by simp)
    | obj q =>
      rw [walk_succ_obj h fuel p k rest s q hv] at hw
      exact hnext _ hw
    | undefined =>
      rw [walk_succ_undefined h fuel p k rest s hv] at hw
      exact hnext _ hw
    | prim n =>
      rw [walk_succ_prim h fuel p k rest s n hv] at hw
      exact hnext _ hw

/-- Every task on the worklist of a finished walk got some identifier
minted for its slot. -/
lemma walk_task_minted (h : Heap) :
    ∀ (fuel : Nat) (ws : List (Ptr × String)) (t : Ptr × String)
      (s s2 : ObsState), t ∈ ws → walk h fuel ws s = .ok s2 →
      ∃ i, ((t.1, t.2), i) ∈ s2.slots := by
  intro fuel
  induction fuel with
  | zero =>
    intro ws t s s2 hm hw
    cases ws with
    | nil => simp at hm
    | cons t0 rest =>
      rw [walk_zero] at hw
      exact absurd hw (by simp)
  | succ fuel ih =>
    intro ws t s s2 hm hw
    cases ws with
    | nil => simp at hm
    | cons t0 rest =>
      obtain ⟨p, k⟩ := t0
      rcases List.mem_cons.mp hm with rfl | hr
      · exact ⟨s.nextId, walk_head_minted h (fuel + 1) p k rest s s2 hw⟩
      · cases hv : getField h p k with
        | null =>
          rw [walk_succ_null h fuel p k rest s hv] at hw
          exact absurd hw (by simp)
        | obj q =>
          rw [walk_succ_obj h fuel p k rest s q hv] at hw
          exact ih _ t _ _ (List.mem_append.mpr (Or.inr hr)) hw
        | undefined =>
          rw [walk_succ_undefined h fuel p k rest s hv] at hw
          exact ih _ t _ _ hr hw
        | prim n =>
          rw [walk_succ_prim h fuel p k rest s n hv] at hw
          exact ih _ t _ _ hr hw

/-- The identifier discipline is preserved by a finished walk. -/
lemma walk_wf (h : Heap) (fuel : Nat) (ws : List (Ptr × String))
    (s s2 : ObsState) (hwf : WfObs s) (hw : walk h fuel ws s = .ok s2) :
    WfObs s2 := by
  obtain ⟨h1, t, ht, hb⟩ := walk_mono h fuel ws s s2 hw
  intro e he
  rw [ht] at he
  rcases List.mem_append.mp he with hm | hm
  · exact lt_of_lt_of_le (hwf e hm) h1
  · exact (hb e hm).2

/-- C4 amended: identifier minting is not idempotent.  A second
`observable` call on the same pair mints a second identifier -- fresh,
hence distinct from the one minted by the first call and from every
other identifier existing before the second call -- and records a
second slot entry for the same pair. -/
theorem c4_second_observe_mints_fresh (h : Heap) (f1 f2 : Nat) (p : Ptr)
    (k : String) (s s1 s2 : ObsState) (hwf : WfObs s)
    (h1 : observeField h f1 p k s = .ok s1)
    (h2 : observeField h f2 p k s1 = .ok s2) :
    ((p, k), s.nextId) ∈ s1.slots ∧
    ((p, k), s1.nextId) ∈ s2.slots ∧
    ∀ e ∈ s1.slots, e.2 ≠ s1.nextId := by
  refine ⟨walk_head_minted h f1 p k [] s s1 h1,
    walk_head_minted h f2 p k [] s1 s2 h2, fun e he => ?_⟩
  exact Nat.ne_of_lt (walk_wf h f1 [(p, k)] s s1 hwf h1 e he)

def hplain4 : Heap := fun _ => ⟨.plain, [("x", .prim 3)], []⟩

/-- C4 counterexample: observing the same pair (0, "x") twice mints
two distinct identifiers, 0 and then 1, for the same slot -- minting is
not idempotent per pair; the second call silently orphans the first
identifier, as section 7 of the spec itself records. -/
theorem c4_counterexample_second_mint :
    observeField hplain4 2 0 "x" ⟨0, []⟩ = .ok ⟨1, [((0, "x"), 0)]⟩ ∧
    observeField hplain4 2 0 "x" ⟨1, [((0, "x"), 0)]⟩
      = .ok ⟨2, [((0, "x"), 0), ((0, "x"), 1)]⟩ ∧
    (0 : SymId) ≠ 1 :=
  ⟨by decide, by decide, by decide⟩

/-- C4 witness: the two observe calls of the counterexample, through
the amended theorem: each call mints the then-current fresh counter for
the pair. -/
theorem c4_second_observe_mints_fresh_witness :
    ((0, "x"), 0) ∈ (⟨1, [((0, "x"), 0)]⟩ : ObsState).slots ∧
    ((0, "x"), 1) ∈ (⟨2, [((0, "x"), 0), ((0, "x"), 1)]⟩ : ObsState).slots := by
  have hh := c4_second_observe_mints_fresh hplain4 2 2 0 "x" ⟨0, []⟩
    ⟨1, [((0, "x"), 0)]⟩ ⟨2, [((0, "x"), 0), ((0, "x"), 1)]⟩
    (by intro e he; simp at he) (by decide) (by decide)
  exact ⟨hh.1, hh.2.1⟩

/-- C5 amended: after an intercepted mutating operation the wrapper
does re-run the recursive observation over `Object.keys` of the
container, and this reaches an element appended to an observed array
(its index is an own enumerable property, so its slot is minted an
identifier); but an element inserted into an observed Set is never
reached, because Set contents are internal slots that `Object.keys`
does not enumerate -- with no other own properties on the Set, the
re-wrap pass mints nothing at all. -/
theorem c5_rewrap_array_not_set :
    (∀ (h : Heap) (fuel : Nat) (c : Ptr) (v : JsVal) (s s2 : ObsState),
      (interceptedArrayPush h fuel c v s).2 = .ok s2 →
      ∃ i, ((c, toString (h c).fields.length), i) ∈ s2.slots) ∧
    (∀ (h : Heap) (fuel : Nat) (c : Ptr) (v : JsVal) (s : ObsState),
      (h c).fields = [] →
      (interceptedSetAdd h fuel c v s).2 = .ok s) := by
  constructor
  · intro h fuel c v s s2 hw
    have hw2 : walk (arrayPush h c v) fuel
        ((keysOf (arrayPush h c v) c).map (fun k2 => (c, k2))) s = .ok s2 := hw
    have hkey : (c, toString (h c).fields.length) ∈
        (keysOf (arrayPush h c v) c).map (fun k2 => (c, k2)) := by
      apply List.mem_map.mpr
      refine ⟨toString (h c).fields.length, ?_, rfl⟩
      simp [keysOf, arrayPush, updObj]
    exact walk_task_minted (arrayPush h c v) fuel _ _ s s2 hkey hw2
  · intro h fuel c v s hf
    have hkeys : keysOf (setAdd h c v) c = [] := by
      simp [keysOf, setAdd, updObj, hf]
    show walk (setAdd h c v) fuel
        ((keysOf (setAdd h c v) c).map (fun k2 => (c, k2))) s = .ok s
    rw [hkeys]
    exact walk_nil _ fuel s

def harr : Heap := fun p =>
  if p = 0 then ⟨.array, [], []⟩
  else if p = 1 then ⟨.plain, [("name", .prim 7)], []⟩
  else ⟨.plain, [], []⟩

def hset : Heap := fun p =>
  if p = 10 then ⟨.set, [], []⟩
  else if p = 11 then ⟨.plain, [("name", .prim 1)], []⟩
  else ⟨.plain, [], []⟩

/-- C5 witness: pushing a record onto an observed empty array mints an
identifier for the new index slot (and, concretely, for the record
field); adding to an observed empty Set finishes the re-wrap pass with
the observation state unchanged. -/
theorem c5_rewrap_array_not_set_witness :
    (∃ i, ((0, toString (harr 0).fields.length), i) ∈
      (⟨2, [((0, "0"), 0), ((1, "name"), 1)]⟩ : ObsState).slots) ∧
    (interceptedSetAdd hset 5 10 (.obj 11) ⟨0, []⟩).2 = .ok ⟨0, []⟩ := by
  have h1 := c5_rewrap_array_not_set.1 harr 5 0 (.obj 1) ⟨0, []⟩
    ⟨2, [((0, "0"), 0), ((1, "name"), 1)]⟩ (by decide)
  have h2 := c5_rewrap_array_not_set.2 hset 5 10 (.obj 11) ⟨0, []⟩ (by decide)
  exact ⟨h1, h2⟩

/-- C5 counterexample: a record (object 11, one plain field "name") is
inserted into the observed Set (object 10).  The insertion lands in the
internal element slots, but the re-wrap pass after the mutation leaves
the observation state exactly as it was: no identifier is minted for
the inserted record or for any of its fields, so the element does not
become observable, against the claim. -/
theorem c5_counterexample_set_insert_inert :
    ((interceptedSetAdd hset 5 10 (.obj 11) ⟨0, []⟩).1 10).elems
      = [.obj 11] ∧
    (interceptedSetAdd hset 5 10 (.obj 11) ⟨0, []⟩).2 = .ok ⟨0, []⟩ :=
  ⟨by decide, by decide⟩

/-! The C9 cycle argument: a task whose value is an object lying on a
containment cycle keeps the worklist forever nonempty, because
expanding any node on a cycle enqueues a child that is again on a
cycle. -/

lemma lookup_some_mem_keys (l : List (String × JsVal)) (k : String)
    (v : JsVal) (h : List.lookup k l = some v) : k ∈ l.map Prod.fst := by
  induction l with
  | nil => simp [List.lookup] at h
  | cons e rest ih =>
    obtain ⟨a, b⟩ := e
    by_cases hk : k = a
    · subst hk; simp
    · have hba : (k == a) = false := beq_eq_false_iff_ne.mpr hk
      have h2 : List.lookup k ((a, b) :: rest) = List.lookup k rest := by
        simp [List.lookup, hba]
      rw [h2] at h
      exact List.mem_cons_of_mem _ (ih h)

lemma getField_obj_mem_keys (h : Heap) (p : Ptr) (k : String) (q : Ptr)
    (hv : getField h p k = .obj q) : k ∈ keysOf h p := by
  unfold getField at hv
  cases hl : List.lookup k (h p).fields with
  | none => rw [hl] at hv; simp at hv
  | some v => exact lookup_some_mem_keys (h p).fields k v hl

lemma cycle_has_cyclic_child (h : Heap) (q : Ptr)
    (hcyc : Relation.TransGen (Edge h) q q) :
    ∃ r, Edge h q r ∧ Relation.TransGen (Edge h) r r := by
  rcases (Relation.TransGen.head'_iff).mp hcyc with ⟨r, hqr, hrq⟩
  exact ⟨r, hqr, Relation.TransGen.tail' hrq hqr⟩

lemma walk_cycle_diverge (h : Heap) (hnn : NoNull h) :
    ∀ (fuel : Nat) (ws : List (Ptr × String)) (s : ObsState),
      (∃ t ∈ ws, ∃ q, getField h t.1 t.2 = .obj q ∧
        Relation.TransGen (Edge h) q q) →
      walk h fuel ws s = .diverge := by
  intro fuel
  induction fuel with
  | zero =>
    intro ws s hex
    obtain ⟨t, ht, _⟩ := hex
    cases ws with
    | nil => simp at ht
    | cons t0 rest => exact walk_zero h t0 rest s
  | succ fuel ih =>
    intro ws s hex
    obtain ⟨t, ht, q, hv, hcyc⟩ := hex
    cases ws with
    | nil => simp at ht
    | cons t0 rest =>
      obtain ⟨p0, k0⟩ := t0
      cases hv0 : getField h p0 k0 with
      | null => exact absurd hv0 (hnn p0 k0)
      | obj q0 =>
        rw [walk_succ_obj h fuel p0 k0 rest s q0 hv0]
        apply ih
        rcases List.mem_cons.mp ht with rfl | hr
        · have hq : JsVal.obj q0 = JsVal.obj q := hv0.symm.trans hv
          injection hq with hq2
          subst hq2
          obtain ⟨r, ⟨kr, hkr⟩, hrcyc⟩ := cycle_has_cyclic_child h q0 hcyc
          refine ⟨(q0, kr), ?_, r, hkr, hrcyc⟩
          apply List.mem_append.mpr; left
          exact List.mem_map.mpr ⟨kr, getField_obj_mem_keys h q0 kr r hkr, rfl⟩
        · exact ⟨t, List.mem_append.mpr (Or.inr hr), q, hv, hcyc⟩
      | undefined =>
        rw [walk_succ_undefined h fuel p0 k0 rest s hv0]
        apply ih
        rcases List.mem_cons.mp ht with rfl | hr
        · have := hv0.symm.trans hv
          exact absurd this (by simp)
        · exact ⟨t, hr, q, hv, hcyc⟩
      | prim n =>
        rw [walk_succ_prim h fuel p0 k0 rest s n hv0]
        apply ih
        rcases List.mem_cons.mp ht with rfl | hr
        · have := hv0.symm.trans hv
          exact absurd this (by simp)
        · exact ⟨t, hr, q, hv, hcyc⟩

/-- C9 amended: on a heap whose fields hold no null values, observing
a field whose value is an object that directly or indirectly contains
itself recurses indefinitely -- the walk exhausts every finite
recursion budget.  (When a null field is reached before the cycle, the
TypeError of C10 terminates the recursion instead; see the
counterexample.) -/
theorem c9_cycle_diverges_without_null (h : Heap) (p : Ptr) (k : String)
    (q : Ptr) (s : ObsState) (hnn : NoNull h)
    (hv : getField h p k = .obj q)
    (hcyc : Relation.TransGen (Edge h) q q) :
    ∀ fuel, observeField h fuel p k s = .diverge := by
  intro fuel
  exact walk_cycle_diverge h hnn fuel [(p, k)] s
    ⟨(p, k), by simp, q, hv, hcyc⟩

def hcyc9 : Heap := fun p =>
  if p = 0 then ⟨.plain, [("x", .null), ("self", .obj 0)], []⟩
  else if p = 1 then ⟨.plain, [("f", .obj 0)], []⟩
  else ⟨.plain, [], []⟩

/-- C9 counterexample: object 0 contains itself through its field
"self", and the observed field (1, "f") holds it; yet observation does
not recurse indefinitely: the walk reaches the null field "x" of
object 0 first and throws the TypeError of C10, terminating with a
budget to spare. -/
theorem c9_counterexample_null_preempts :
    Edge hcyc9 0 0 ∧ getField hcyc9 1 "f" = .obj 0 ∧
    observeField hcyc9 5 1 "f" ⟨0, []⟩ = .tyerr :=
  ⟨⟨"self", by decide⟩, by decide, by decide⟩

def hcyc9b : Heap := fun p =>
  if p = 0 then ⟨.plain, [("self", .obj 0)], []⟩
  else if p = 1 then ⟨.plain, [("f", .obj 0)], []⟩
  else ⟨.plain, [], []⟩

lemma getD_lookup_ne_null (l : List (String × JsVal)) (k : String)
    (hl : ∀ e ∈ l, e.2 ≠ .null) :
    (List.lookup k l).getD .undefined ≠ .null := by
  induction l with
  | nil => simp [List.lookup]
  | cons e rest ih =>
    obtain ⟨a, b⟩ := e
    by_cases hk : k = a
    · subst hk
      simp [List.lookup]
      exact hl (k, b) (List.mem_cons_self _ _)
    · have hba : (k == a) = false := beq_eq_false_iff_ne.mpr hk
      have h2 : List.lookup k ((a, b) :: rest) = List.lookup k rest := by
        simp [List.lookup, hba]
      rw [h2]
      exact ih (fun e he => hl e (List.mem_cons_of_mem _ he))

lemma hcyc9b_nonull : NoNull hcyc9b := by
  intro p k
  show (List.lookup k (hcyc9b p).fields).getD .undefined ≠ .null
  apply getD_lookup_ne_null
  intro e he
  by_cases h0 : p = 0
  · subst h0; simp [hcyc9b] at he; simp [he]
  · by_cases h1 : p = 1
    · subst h1; simp [hcyc9b] at he; simp [he]
    · simp [hcyc9b, h0, h1] at he

/-- C9 witness: a concrete null-free self-containing object exhausts a
concrete budget. -/
theorem c9_cycle_diverges_without_null_witness :
    observeField hcyc9b 7 1 "f" ⟨0, []⟩ = .diverge :=
  c9_cycle_diverges_without_null hcyc9b 1 "f" 0 ⟨0, []⟩ hcyc9b_nonull
    (by decide) (Relation.TransGen.single ⟨"self", by decide⟩) 7

/-- C10: observing a field whose current value is null throws the
TypeError of `Object.keys(null)` -- the value passes the `typeof`
check because `typeof null` is the string "object" -- while a field
that is `undefined` or absent is observed as an opaque value: the
identifier is minted and the walk finishes at once. -/
theorem c10_null_value_throws (h : Heap) (p : Ptr) (k : String)
    (s : ObsState) (fuel : Nat) (hnull : getField h p k = .null) :
    observeField h (fuel + 1) p k s = .tyerr ∧
    (∀ (p2 : Ptr) (k2 : String) (s2 : ObsState),
      getField h p2 k2 = .undefined →
      observeField h (fuel + 1) p2 k2 s2 = .ok (mintSlot s2 p2 k2)) := by
  constructor
  · exact walk_succ_null h fuel p k [] s hnull
  · intro p2 k2 s2 hu
    show walk h (fuel + 1) [(p2, k2)] s2 = .ok (mintSlot s2 p2 k2)
    rw [walk_succ_undefined h fuel p2 k2 [] s2 hu]
    exact walk_nil h fuel (mintSlot s2 p2 k2)

def hnull10 : Heap := fun p =>
  if p = 0 then ⟨.plain, [("a", .null)], []⟩ else ⟨.plain, [], []⟩

/-- C10 witness: the null-valued field (0, "a") throws, the absent
field (0, "b") is observed as opaque. -/
theorem c10_null_value_throws_witness :
    observeField hnull10 3 0 "a" ⟨0, []⟩ = .tyerr ∧
    observeField hnull10 3 0 "b" ⟨0, []⟩ = .ok (mintSlot ⟨0, []⟩ 0 "b") := by
  have hh := c10_null_value_throws hnull10 0 "a" ⟨0, []⟩ 2 (by decide)
  exact ⟨hh.1, hh.2 0 "b" ⟨0, []⟩ (by decide)⟩

end MiniMobx
